import Mathlib

/-!
Verification development for the Tak rules engine (`src/lib.rs`).

The Rust code is shallowly embedded: machine integers (`usize`, `u8`) become
`Nat`; operations that can panic in Rust (indexing a `Vec` out of bounds,
unsigned-integer subtraction underflow, `Option::unwrap` on `None`) are
embedded as `Option`-returning functions where `none` models the panic.
Per-square stacks are `List Stone` in `Vec` order: index 0 is the bottom of
the stack and the last element is the top (Rust reads the top via `.last()`
and pushes via `.push`).
-/

set_option maxHeartbeats 1000000

/-- Players; `White` is the first mover. -/
inductive Player where
  | White
  | Black
deriving DecidableEq, Repr

/-- `Player::next`: strict alternation. -/
def Player.next : Player → Player
  | .White => .Black
  | .Black => .White

/-- The four movement directions. -/
inductive Dir where
  | North
  | East
  | South
  | West
deriving DecidableEq, Repr

/-- A board coordinate: `struct Loc { row: usize, col: usize }`. -/
structure Loc where
  row : Nat
  col : Nat
deriving DecidableEq, Repr

/-- `Loc::move_in_by`.  Rust computes `self.row - count` / `self.col - count`
on `usize` for North/West, which panics on underflow; `none` models that
panic. -/
def Loc.move_in_by (l : Loc) (dir : Dir) (count : Nat) : Option Loc :=
  match dir with
  | .North => if count ≤ l.row then some ⟨l.row - count, l.col⟩ else none
  | .East => some ⟨l.row, l.col + count⟩
  | .South => some ⟨l.row + count, l.col⟩
  | .West => if count ≤ l.col then some ⟨l.row, l.col - count⟩ else none

/-- `Loc::move_in`: single step. -/
def Loc.move_in (l : Loc) (dir : Dir) : Option Loc :=
  l.move_in_by dir 1

/-- Stone types. -/
inductive StoneType where
  | Flat
  | Standing
  | Capstone
deriving DecidableEq, Repr

/-- A stone: owner and type. -/
structure Stone where
  owner : Player
  typ : StoneType
deriving DecidableEq, Repr

/-- A turn: `Place` or `Move`.  `stacks'` is the Rust `Vec<usize>` field:
`stacks'[0]` is the number of stones picked up and `stacks'[i]` (for `i ≥ 1`)
is the number of stones still carried after depositing on the `i`-th square
of the path. -/
inductive Turn where
  | Place (loc : Loc) (player : Player) (typ : StoneType)
  | Move (loc : Loc) (player : Player) (dir : Dir) (stacks' : List Nat)
deriving DecidableEq, Repr

/-- `Turn::player`. -/
def Turn.player : Turn → Player
  | .Place _ p _ => p
  | .Move _ p _ _ => p

/-- `struct Board(Vec<Vec<Vec<Stone>>>)`. -/
structure Board where
  grid : List (List (List Stone))
deriving DecidableEq, Repr

/-- `Board::new(size)`: a `size × size` grid of empty stacks. -/
def Board.new (size : Nat) : Board :=
  ⟨List.replicate size (List.replicate size ([] : List Stone))⟩

/-- `Board::size`: the length of the outer `Vec`. -/
def Board.size (b : Board) : Nat := b.grid.length

/-- `Board::valid_loc`. -/
def Board.valid_loc (b : Board) (loc : Loc) : Bool :=
  decide (loc.row < b.size) && decide (loc.col < b.size)

/-- `Index<Loc> for Board`: `&self.0[index.row][index.col]`; `none` models
the out-of-bounds panic. -/
def Board.get (b : Board) (loc : Loc) : Option (List Stone) :=
  b.grid[loc.row]?.bind (fun row => row[loc.col]?)

/-- Writing a whole stack back through `IndexMut<Loc>`; `none` models the
out-of-bounds panic. -/
def Board.setStack (b : Board) (loc : Loc) (stack : List Stone) : Option Board :=
  match b.grid[loc.row]? with
  | none => none
  | some row =>
    match row[loc.col]? with
    | none => none
    | some _ => some ⟨b.grid.set loc.row (row.set loc.col stack)⟩

/-- `stacks'.windows(2).all(|s| s[0] > 0 && s[0] > s[1])`. -/
def windowsOK : List Nat → Bool
  | a :: b :: rest => (decide (0 < a) && decide (b < a)) && windowsOK (b :: rest)
  | _ => true

/-- The wall-crushing loop of `Board::valid_turn` (lines 220–233 of
`lib.rs`): walk one square per `stacks'` entry in direction `dir`, and on a
square whose top stone is Standing require the carried top stone to be a
Capstone entering with exactly one stone carried; a Capstone top always
rejects. -/
def wallLoop (b : Board) (top_here : Stone) (dir : Dir) : Loc → List Nat → Option Bool
  | _, [] => some true
  | cur, stack :: rest =>
    match cur.move_in dir with
    | none => none
    | some next =>
      match b.get next with
      | none => none
      | some sq =>
        match sq.getLast? with
        | none => wallLoop b top_here dir next rest
        | some top_there =>
          if top_there.typ = StoneType.Standing ∧
              ¬(top_here.typ = StoneType.Capstone ∧ stack = 1) then some false
          else if top_there.typ = StoneType.Capstone then some false
          else wallLoop b top_here dir next rest

/-- `Board::valid_turn`, with checks in the source's order.  `none` models a
panic (indexing an off-board square, or coordinate underflow in
`move_in_by`). -/
def Board.valid_turn (b : Board) (t : Turn) : Option Bool :=
  match t with
  | .Place loc _ _ =>
    if b.valid_loc loc then
      match b.get loc with
      | none => none
      | some s => some s.isEmpty
    else some false
  | .Move loc player dir stacks' =>
    match stacks' with
    | [] => some false
    | s0 :: rest =>
      if 0 < s0 ∧ s0 ≤ b.size then
        match b.get loc with
        | none => none
        | some here =>
          if s0 ≤ here.length then
            if windowsOK (s0 :: rest) then
              if b.valid_loc loc then
                match loc.move_in_by dir (s0 :: rest).length with
                | none => none
                | some dest =>
                  if b.valid_loc dest then
                    match here.getLast? with
                    | none => none
                    | some top_here =>
                      if top_here.owner = player then
                        wallLoop b top_here dir loc (s0 :: rest)
                      else some false
                  else some false
              else some false
            else some false
          else some false
      else some false

/-- `last_mut` flattening in `Board::apply_turn`: if the stack has a top
stone, set its type to `Flat` (owner unchanged). -/
def flattenTop (s : List Stone) : List Stone :=
  match s.getLast? with
  | none => s
  | some top => s.dropLast ++ [{ top with typ := StoneType.Flat }]

/-- The deposit loop of `Board::apply_turn` (lines 255–269 of `lib.rs`).
At each entry `stack` of `stacks'[1..]` the code keeps the top `stack`
carried stones (`split_off(held.len() - stack)`) and appends the rest onto
the next square after flattening its top; the final square receives
everything still held. -/
def moveLoop (dir : Dir) : Board → Loc → List Stone → List Nat → Option Board
  | b, cur, held, [] =>
    match cur.move_in dir with
    | none => none
    | some next =>
      match b.get next with
      | none => none
      | some sq => b.setStack next (flattenTop sq ++ held)
  | b, cur, held, stack :: rest =>
    match cur.move_in dir with
    | none => none
    | some next =>
      if stack ≤ held.length then
        match b.get next with
        | none => none
        | some sq =>
          match b.setStack next (flattenTop sq ++ held.take (held.length - stack)) with
          | none => none
          | some b' => moveLoop dir b' next (held.drop (held.length - stack)) rest
      else none

/-- `Board::apply_turn`. -/
def Board.apply_turn (b : Board) (t : Turn) : Option Board :=
  match t with
  | .Place loc player typ =>
    match b.get loc with
    | none => none
    | some s => b.setStack loc (s ++ [⟨player, typ⟩])
  | .Move loc _ dir stacks' =>
    match stacks' with
    | [] => none
    | s0 :: rest =>
      match b.get loc with
      | none => none
      | some here =>
        if s0 ≤ here.length then
          match b.setStack loc (here.take (here.length - s0)) with
          | none => none
          | some b1 => moveLoop dir b1 loc (here.drop (here.length - s0)) rest
        else none

/-- `struct Reserve { reg: u8, cap: u8 }`. -/
structure Reserve where
  reg : Nat
  cap : Nat
deriving DecidableEq, Repr

/-- `struct GameState`.  The Rust `HashMap<Player, Reserve>` always contains
both players, so it is embedded as a total function. -/
structure GameState where
  current_player : Player
  board : Board
  reserves : Player → Reserve

/-- The reserve table of `GameState::new`; `none` models the panic for an
unsupported size. -/
def reserveFor (size : Nat) : Option Reserve :=
  match size with
  | 3 => some ⟨10, 0⟩
  | 4 => some ⟨15, 0⟩
  | 5 => some ⟨21, 1⟩
  | 6 => some ⟨30, 1⟩
  | 7 => some ⟨40, 2⟩
  | 8 => some ⟨50, 2⟩
  | _ => none

/-- `GameState::new`. -/
def GameState.new (size : Nat) : Option GameState :=
  match reserveFor size with
  | none => none
  | some reserve => some ⟨Player.White, Board.new size, fun _ => reserve⟩

/-- `GameState::valid_turn`: turn-order check, then reserve check for Place,
then delegation to `Board::valid_turn`. -/
def GameState.valid_turn (g : GameState) (t : Turn) : Option Bool :=
  if t.player = g.current_player then
    match t with
    | .Place _ _ typ =>
      match typ with
      | .Flat | .Standing =>
        if (g.reserves t.player).reg = 0 then some false else g.board.valid_turn t
      | .Capstone =>
        if (g.reserves t.player).cap = 0 then some false else g.board.valid_turn t
    | .Move _ _ _ _ => g.board.valid_turn t
  else some false

/-- The `and_modify` closure of `GameState::apply_turn`: decrement the pool
matching the placed stone type. -/
def Reserve.consume (r : Reserve) (typ : StoneType) : Reserve :=
  match typ with
  | .Flat | .Standing => ⟨r.reg - 1, r.cap⟩
  | .Capstone => ⟨r.reg, r.cap - 1⟩

/-- `GameState::apply_turn`: returns `(false, unchanged state)` on an invalid
turn, otherwise applies the turn to the board, flips the player and, for a
Place, decrements the acting player's reserve. -/
def GameState.apply_turn (g : GameState) (t : Turn) : Option (Bool × GameState) :=
  match g.valid_turn t with
  | none => none
  | some false => some (false, g)
  | some true =>
    match g.board.apply_turn t with
    | none => none
    | some b' =>
      match t with
      | .Place _ player typ =>
        some (true, ⟨g.current_player.next, b',
          fun p => if p = player then (g.reserves p).consume typ else g.reserves p⟩)
      | .Move _ _ _ _ => some (true, ⟨g.current_player.next, b', g.reserves⟩)

/-- The per-square drop counts determined by a `stacks'` vector: square `i`
of the path receives `stacks'[i] - stacks'[i+1]` stones and the final square
receives the last entry. -/
def dropsOf : List Nat → List Nat
  | [] => []
  | [a] => [a]
  | a :: b :: rest => (a - b) :: dropsOf (b :: rest)

/-- Number of stones in one stack owned by `p` whose capstone-ness equals
`c` (`c = false` counts Flat and Standing stones against the ordinary pool,
`c = true` counts Capstones). -/
def countStack (s : List Stone) (p : Player) (c : Bool) : Nat :=
  (s.filter (fun st => decide (st.owner = p) && (decide (st.typ = StoneType.Capstone) == c))).length

/-- Number of stones on the whole board owned by `p` with capstone-ness `c`. -/
def Board.count (b : Board) (p : Player) (c : Bool) : Nat :=
  (b.grid.map (fun row => (row.map (fun s => countStack s p c)).sum)).sum

/-- Modelled from the spec's wording of Move application (§4.2): walk the
path one step per drop-count entry; before depositing on a square, flatten
its top stone if present, then append the prefix of the carried stones of
that step's drop count and continue with the remainder. -/
def specMoveLoop (dir : Dir) : Board → Loc → List Stone → List Nat → Option Board
  | b, _, _, [] => some b
  | b, cur, held, d :: rest =>
    match cur.move_in dir with
    | none => none
    | some next =>
      match b.get next with
      | none => none
      | some sq =>
        match b.setStack next (flattenTop sq ++ held.take d) with
        | none => none
        | some b' => specMoveLoop dir b' next (held.drop d) rest

/-- Modelled from the spec's wording of Move application (§4.2): remove
exactly `total` stones from the top of the source stack preserving their
relative order, then deposit them along the path according to the drop
counts. -/
def specMoveApply (b : Board) (loc : Loc) (dir : Dir) (total : Nat) (drops : List Nat) : Option Board :=
  match b.get loc with
  | none => none
  | some here =>
    if total ≤ here.length then
      match b.setStack loc (here.take (here.length - total)) with
      | none => none
      | some b1 => specMoveLoop dir b1 loc (here.drop (here.length - total)) drops
    else none

/-- Run a list of turns through `GameState::apply_turn`, requiring every
turn to be accepted. -/
def runTurns : GameState → List Turn → Option GameState
  | g, [] => some g
  | g, t :: ts =>
    match g.apply_turn t with
    | none => none
    | some (false, _) => none
    | some (true, g') => runTurns g' ts

/-- States reachable from `GameState::new size` by successful `apply_turn`
calls. -/
inductive Reachable (size : Nat) : GameState → Prop
  | base (g : GameState) : GameState.new size = some g → Reachable size g
  | step (g : GameState) (t : Turn) (g' : GameState) :
      Reachable size g → g.apply_turn t = some (true, g') → Reachable size g'

/-- No square within `n` steps of `cur` in direction `dir` is topped by a
Capstone (and every such square exists on the board). -/
def noCapPath (b : Board) (dir : Dir) : Loc → Nat → Prop
  | _, 0 => True
  | cur, n + 1 =>
    ∃ next, cur.move_in dir = some next ∧
      ∃ sq, b.get next = some sq ∧
        (∀ top, sq.getLast? = some top → top.typ ≠ StoneType.Capstone) ∧
        noCapPath b dir next n

/-- `bc` agrees with `b0` on every square strictly ahead of `cur` in
direction `dir`. -/
def Agree (bc b0 : Board) (dir : Dir) (cur : Loc) : Prop :=
  ∀ k l, 1 ≤ k → cur.move_in_by dir k = some l → bc.get l = b0.get l

/-- Moving by `k + 1` steps is one step followed by `k` steps. -/
theorem move_in_by_succ (l : Loc) (dir : Dir) (k : Nat) :
    l.move_in_by dir (k + 1) = (l.move_in dir).bind (fun l' => l'.move_in_by dir k) := by
  cases dir
  case North =>
    rcases le_or_lt (k + 1) l.row with h | h
    · have h1 : 1 ≤ l.row := by omega
      have h2 : k ≤ l.row - 1 := by omega
      simp only [Loc.move_in, Loc.move_in_by, if_pos h, if_pos h1, Option.some_bind, if_pos h2]
      have he : l.row - (k + 1) = l.row - 1 - k := by omega
      rw [he]
    · rcases le_or_lt 1 l.row with h1 | h1
      · have h2 : ¬ k ≤ l.row - 1 := by omega
        simp [Loc.move_in, Loc.move_in_by, h1, h2, Nat.not_le.mpr h]
      · have h2 : ¬ 1 ≤ l.row := by omega
        simp [Loc.move_in, Loc.move_in_by, h2, Nat.not_le.mpr h]
  case East =>
    simp only [Loc.move_in, Loc.move_in_by, Option.some_bind]
    have he : l.col + (k + 1) = l.col + 1 + k := by omega
    rw [he]
  case South =>
    simp only [Loc.move_in, Loc.move_in_by, Option.some_bind]
    have he : l.row + (k + 1) = l.row + 1 + k := by omega
    rw [he]
  case West =>
    rcases le_or_lt (k + 1) l.col with h | h
    · have h1 : 1 ≤ l.col := by omega
      have h2 : k ≤ l.col - 1 := by omega
      simp only [Loc.move_in, Loc.move_in_by, if_pos h, if_pos h1, Option.some_bind, if_pos h2]
      have he : l.col - (k + 1) = l.col - 1 - k := by omega
      rw [he]
    · rcases le_or_lt 1 l.col with h1 | h1
      · have h2 : ¬ k ≤ l.col - 1 := by omega
        simp [Loc.move_in, Loc.move_in_by, h1, h2, Nat.not_le.mpr h]
      · have h2 : ¬ 1 ≤ l.col := by omega
        simp [Loc.move_in, Loc.move_in_by, h2, Nat.not_le.mpr h]

/-- Moving at least one step never returns to the starting square. -/
theorem move_in_by_ne {l l' : Loc} {dir : Dir} {k : Nat} (hk : 1 ≤ k)
    (h : l.move_in_by dir k = some l') : l' ≠ l := by
  cases dir <;> simp only [Loc.move_in_by] at h
  case North =>
    split at h
    · cases h
      intro hc
      have := congrArg Loc.row hc
      simp only at this
      omega
    · cases h
  case East =>
    cases h
    intro hc
    have := congrArg Loc.col hc
    simp only at this
    omega
  case South =>
    cases h
    intro hc
    have := congrArg Loc.row hc
    simp only at this
    omega
  case West =>
    split at h
    · cases h
      intro hc
      have := congrArg Loc.col hc
      simp only at this
      omega
    · cases h

/-- A `setStack` result reads back the written stack at the written square. -/
theorem get_setStack_self {b b' : Board} {loc : Loc} {s : List Stone}
    (h : b.setStack loc s = some b') : b'.get loc = some s := by
  unfold Board.setStack at h
  cases hr : b.grid[loc.row]? with
  | none => simp [hr] at h
  | some row =>
    simp only [hr] at h
    cases hc : row[loc.col]? with
    | none => simp [hc] at h
    | some old =>
      simp only [hc] at h
      cases h
      have hrow : loc.row < b.grid.length := (List.getElem?_eq_some_iff.mp hr).1
      have hcol : loc.col < row.length := (List.getElem?_eq_some_iff.mp hc).1
      unfold Board.get
      simp only [List.getElem?_set, if_pos rfl, if_pos hrow, Option.some_bind]
      simp [List.getElem?_set, hcol]

/-- A `setStack` leaves every other square unchanged. -/
theorem get_setStack_ne {b b' : Board} {loc : Loc} {s : List Stone}
    (h : b.setStack loc s = some b') {l : Loc} (hne : l ≠ loc) :
    b'.get l = b.get l := by
  unfold Board.setStack at h
  cases hr : b.grid[loc.row]? with
  | none => simp [hr] at h
  | some row =>
    simp only [hr] at h
    cases hc : row[loc.col]? with
    | none => simp [hc] at h
    | some old =>
      simp only [hc] at h
      cases h
      have hrow : loc.row < b.grid.length := (List.getElem?_eq_some_iff.mp hr).1
      unfold Board.get
      rcases eq_or_ne l.row loc.row with hre | hre
      · have hcol : l.col ≠ loc.col := by
          intro hcc
          exact hne (by cases l; cases loc; simp_all)
        rw [hre, List.getElem?_set, if_pos rfl, if_pos hrow, hr]
        simp only [Option.some_bind]
        rw [List.getElem?_set, if_neg (fun hcc => hcol hcc.symm)]
      · rw [List.getElem?_set, if_neg (fun hcc => hre hcc.symm)]

/-- `setStack` succeeds at any square that reads successfully. -/
theorem setStack_some {b : Board} {loc : Loc} {s₀ : List Stone}
    (h : b.get loc = some s₀) (s : List Stone) : ∃ b', b.setStack loc s = some b' := by
  unfold Board.get at h
  cases hr : b.grid[loc.row]? with
  | none => simp [hr] at h
  | some row =>
    rw [hr] at h
    simp only [Option.some_bind] at h
    refine ⟨⟨b.grid.set loc.row (row.set loc.col s)⟩, ?_⟩
    unfold Board.setStack
    simp [hr, h]

/-- `setStack` preserves the board's outer dimension. -/
theorem size_setStack {b b' : Board} {loc : Loc} {s : List Stone}
    (h : b.setStack loc s = some b') : b'.size = b.size := by
  unfold Board.setStack at h
  cases hr : b.grid[loc.row]? with
  | none => simp [hr] at h
  | some row =>
    simp only [hr] at h
    cases hc : row[loc.col]? with
    | none => simp [hc] at h
    | some old =>
      simp only [hc] at h
      cases h
      simp [Board.size]

/-- Replacing one list element changes a mapped sum by the difference of the
images. -/
theorem sum_map_set {α : Type} (f : α → Nat) :
    ∀ (l : List α) (i : Nat) (x y : α), l[i]? = some y →
      ((l.set i x).map f).sum + f y = (l.map f).sum + f x := by
  intro l
  induction l with
  | nil => intro i x y h; simp at h
  | cons a l ih =>
    intro i x y h
    cases i with
    | zero =>
      simp only [List.getElem?_cons_zero, Option.some_inj] at h
      subst h
      simp only [List.set_cons_zero, List.map_cons, List.sum_cons]
      omega
    | succ i =>
      simp only [List.getElem?_cons_succ] at h
      have := ih i x y h
      simp only [List.set_cons_succ, List.map_cons, List.sum_cons]
      omega

/-- Writing a stack changes each count by the difference between the old and
new stacks. -/
theorem count_setStack {b b' : Board} {loc : Loc} {s₀ s : List Stone}
    (hget : b.get loc = some s₀) (hset : b.setStack loc s = some b') (p : Player) (c : Bool) :
    b'.count p c + countStack s₀ p c = b.count p c + countStack s p c := by
  unfold Board.get at hget
  unfold Board.setStack at hset
  cases hr : b.grid[loc.row]? with
  | none => simp [hr] at hset
  | some row =>
    rw [hr] at hget
    simp only [Option.some_bind] at hget
    simp only [hr, hget] at hset
    cases hset
    unfold Board.count
    simp only
    have hinner := sum_map_set (fun st => countStack st p c) row loc.col s s₀ hget
    have houter := sum_map_set (fun r => (r.map (fun st => countStack st p c)).sum)
      b.grid loc.row (row.set loc.col s) row hr
    simp only at hinner houter
    omega

/-- Counts add over stack concatenation. -/
theorem countStack_append (s t : List Stone) (p : Player) (c : Bool) :
    countStack (s ++ t) p c = countStack s p c + countStack t p c := by
  simp [countStack, List.filter_append]

/-- Flattening does not change any count as long as the top stone is not a
Capstone: only the type field changes, and never to or from `Capstone`. -/
theorem countStack_flattenTop {s : List Stone}
    (h : ∀ top, s.getLast? = some top → top.typ ≠ StoneType.Capstone)
    (p : Player) (c : Bool) : countStack (flattenTop s) p c = countStack s p c := by
  unfold flattenTop
  cases hl : s.getLast? with
  | none => rfl
  | some top =>
    have hs : s ≠ [] := by
      intro he
      rw [he] at hl
      simp at hl
    have hdec : s.dropLast ++ [s.getLast hs] = s := List.dropLast_append_getLast hs
    have hgl : s.getLast hs = top := by
      have := List.getLast?_eq_getLast s hs
      rw [hl] at this
      exact (Option.some_inj.mp this).symm
    conv_rhs => rw [← hdec]
    rw [countStack_append, countStack_append, hgl]
    have hnc : top.typ ≠ StoneType.Capstone := h top hl
    congr 1
    cases top with
    | mk owner typ =>
      cases typ with
      | Flat => rfl
      | Standing => by_cases ho : owner = p <;> cases c <;> simp [countStack, ho]
      | Capstone => exact absurd rfl hnc

/-- Flattening never changes the owners of the stones in a stack. -/
theorem flattenTop_map_owner (s : List Stone) :
    (flattenTop s).map Stone.owner = s.map Stone.owner := by
  unfold flattenTop
  cases hl : s.getLast? with
  | none => rfl
  | some top =>
    have hs : s ≠ [] := by
      intro he
      rw [he] at hl
      simp at hl
    have hdec : s.dropLast ++ [s.getLast hs] = s := List.dropLast_append_getLast hs
    have hgl : s.getLast hs = top := by
      have := List.getLast?_eq_getLast s hs
      rw [hl] at this
      exact (Option.some_inj.mp this).symm
    conv_rhs => rw [← hdec]
    simp [hgl]

/-- The fresh board holds no stones. -/
theorem count_board_new (n : Nat) (p : Player) (c : Bool) :
    (Board.new n).count p c = 0 := by
  simp [Board.new, Board.count, List.map_replicate, List.sum_replicate, countStack]

/-- Splitting a stack splits its count. -/
theorem countStack_take_drop (s : List Stone) (n : Nat) (p : Player) (c : Bool) :
    countStack (s.take n) p c + countStack (s.drop n) p c = countStack s p c := by
  conv_rhs => rw [← List.take_append_drop n s]
  rw [countStack_append]

/-- Under the strictly-decreasing check, the drop counts sum back to the
number of stones picked up. -/
theorem dropsOf_sum : ∀ (a : Nat) (rest : List Nat), windowsOK (a :: rest) = true →
    (dropsOf (a :: rest)).sum = a := by
  intro a rest
  induction rest generalizing a with
  | nil => intro _; simp [dropsOf]
  | cons b rest ih =>
    intro hw
    simp only [windowsOK, Bool.and_eq_true, decide_eq_true_eq] at hw
    have hb := ih b (by simp [windowsOK, hw.2])
    simp only [dropsOf, List.sum_cons, hb]
    omega

/-- Under the strictly-decreasing check, every drop before the final square
is at least 1. -/
theorem dropsOf_intermediate_pos :
    ∀ (s : List Nat), windowsOK s = true → ∀ i, i + 1 < (dropsOf s).length →
      ∃ d, (dropsOf s)[i]? = some d ∧ 1 ≤ d := by
  intro s
  induction s with
  | nil => intro _ i hi; simp [dropsOf] at hi
  | cons a rest ih =>
    intro hw i hi
    cases rest with
    | nil => simp [dropsOf] at hi
    | cons b rest' =>
      simp only [windowsOK, Bool.and_eq_true, decide_eq_true_eq] at hw
      cases i with
      | zero =>
        refine ⟨a - b, ?_, ?_⟩
        · simp [dropsOf]
        · omega
      | succ i =>
        have hlen : i + 1 < (dropsOf (b :: rest')).length := by
          simpa [dropsOf] using hi
        obtain ⟨d, hd, hd1⟩ := ih (by simp [windowsOK, hw.2]) i hlen
        exact ⟨d, by simpa [dropsOf] using hd, hd1⟩

/-- If a carry entry is 1 then, under the strictly-decreasing check, the
drop onto the corresponding square is exactly 1. -/
theorem dropsOf_of_entry_one :
    ∀ (s : List Nat), windowsOK s = true → ∀ (i : Nat), s[i]? = some 1 →
      (dropsOf s)[i]? = some 1 := by
  intro s
  induction s with
  | nil => intro _ i hi; simp at hi
  | cons a rest ih =>
    intro hw i hi
    cases rest with
    | nil =>
      cases i with
      | zero => simpa [dropsOf] using hi
      | succ i => simp at hi
    | cons b rest' =>
      simp only [windowsOK, Bool.and_eq_true, decide_eq_true_eq] at hw
      cases i with
      | zero =>
        simp only [List.getElem?_cons_zero, Option.some_inj] at hi
        have hb : b = 0 := by omega
        simp [dropsOf, hi, hb]
      | succ i =>
        simp only [List.getElem?_cons_succ] at hi
        have hrec := ih (by simp [windowsOK, hw.2]) i hi
        show (dropsOf (a :: b :: rest'))[i + 1]? = some 1
        rw [show dropsOf (a :: b :: rest') = (a - b) :: dropsOf (b :: rest') from rfl,
          List.getElem?_cons_succ]
        exact hrec

/-- Inversion of `Board::valid_turn` for an accepted Move: every check along
the way must have passed. -/
theorem valid_turn_move_inv {b : Board} {loc : Loc} {player : Player} {dir : Dir}
    {st : List Nat} (h : b.valid_turn (.Move loc player dir st) = some true) :
    ∃ s0 rest here dest top_here,
      st = s0 :: rest ∧ 0 < s0 ∧ s0 ≤ b.size ∧
      b.get loc = some here ∧ s0 ≤ here.length ∧
      windowsOK (s0 :: rest) = true ∧
      b.valid_loc loc = true ∧
      loc.move_in_by dir (s0 :: rest).length = some dest ∧
      b.valid_loc dest = true ∧
      here.getLast? = some top_here ∧ top_here.owner = player ∧
      wallLoop b top_here dir loc (s0 :: rest) = some true := by
  cases st with
  | nil => simp [Board.valid_turn] at h
  | cons s0 rest =>
    simp only [Board.valid_turn] at h
    split at h
    case isFalse => simp at h
    case isTrue h1 =>
      split at h
      case h_1 => exact Option.noConfusion h
      case h_2 here hget =>
        split at h
        case isFalse => simp at h
        case isTrue h2 =>
          split at h
          case isFalse => simp at h
          case isTrue h3 =>
            split at h
            case isFalse => simp at h
            case isTrue h4 =>
              split at h
              case h_1 => exact Option.noConfusion h
              case h_2 dest hdest =>
                split at h
                case isFalse => simp at h
                case isTrue h5 =>
                  split at h
                  case h_1 => exact Option.noConfusion h
                  case h_2 top_here htop =>
                    split at h
                    case isFalse => simp at h
                    case isTrue h6 =>
                      exact ⟨s0, rest, here, dest, top_here, rfl, h1.1, h1.2, hget,
                        h2, h3, h4, hdest, h5, htop, h6, h⟩

/-- Board-level legality of a Place: accepted exactly when the target is
on-board and its stack is empty. -/
theorem valid_turn_place_iff (b : Board) (loc : Loc) (player : Player) (typ : StoneType) :
    b.valid_turn (.Place loc player typ) = some true ↔
      (b.valid_loc loc = true ∧ b.get loc = some []) := by
  constructor
  · intro h
    simp only [Board.valid_turn] at h
    split at h
    case isFalse => simp at h
    case isTrue h1 =>
      split at h
      case h_1 => exact Option.noConfusion h
      case h_2 s hget =>
        have he : s.isEmpty = true := by simpa using h
        exact ⟨h1, by rw [hget, List.isEmpty_iff.mp he]⟩
  · rintro ⟨h1, h2⟩
    simp [Board.valid_turn, h1, h2]

/-- A wall-loop that accepts certifies that no path square is topped by a
Capstone (and that the whole path is physically reachable). -/
theorem wallLoop_imp_noCapPath {b : Board} {th : Stone} {dir : Dir} :
    ∀ (st : List Nat) (cur : Loc), wallLoop b th dir cur st = some true →
      noCapPath b dir cur st.length := by
  intro st
  induction st with
  | nil =>
    intro cur _
    simp [noCapPath]
  | cons stack rest ih =>
    intro cur h
    unfold wallLoop at h
    split at h
    case h_1 => exact Option.noConfusion h
    case h_2 next hnext =>
      split at h
      case h_1 => exact Option.noConfusion h
      case h_2 sq hsq =>
        show noCapPath b dir cur (rest.length + 1)
        simp only [noCapPath]
        split at h
        case h_1 hlast =>
          refine ⟨next, hnext, sq, hsq, ?_, ih next h⟩
          intro top htop
          rw [hlast] at htop
          exact Option.noConfusion htop
        case h_2 top_there hlast =>
          split at h
          case isTrue => simp at h
          case isFalse hc1 =>
            split at h
            case isTrue => simp at h
            case isFalse hc2 =>
              refine ⟨next, hnext, sq, hsq, ?_, ih next h⟩
              intro top htop
              rw [hlast] at htop
              cases htop
              exact hc2

/-- What an accepted wall-loop says about the `i`-th path square: its top is
never a Capstone, and if it is Standing then the moving top stone is a
Capstone and the carry entry for that square is exactly 1. -/
theorem wallLoop_index {b : Board} {th : Stone} {dir : Dir} :
    ∀ (st : List Nat) (cur : Loc), wallLoop b th dir cur st = some true →
      ∀ (i : Nat), i < st.length → ∀ (l : Loc) (sq : List Stone) (top : Stone),
        cur.move_in_by dir (i + 1) = some l → b.get l = some sq →
        sq.getLast? = some top →
        top.typ ≠ StoneType.Capstone ∧
        (top.typ = StoneType.Standing →
          th.typ = StoneType.Capstone ∧ st[i]? = some 1) := by
  intro st
  induction st with
  | nil =>
    intro cur _ i hi
    simp at hi
  | cons stack rest ih =>
    intro cur h i hi l sq top hmv hget hlast
    unfold wallLoop at h
    split at h
    case h_1 => exact Option.noConfusion h
    case h_2 next hnext =>
      split at h
      case h_1 => exact Option.noConfusion h
      case h_2 sq0 hsq0 =>
        cases i with
        | zero =>
          have hl : l = next := by
            have h1 : cur.move_in_by dir 1 = cur.move_in dir := rfl
            rw [h1, hnext] at hmv
            exact (Option.some_inj.mp hmv).symm
          subst hl
          rw [hget] at hsq0
          have hsq : sq0 = sq := (Option.some_inj.mp hsq0).symm
          subst hsq
          split at h
          case h_1 hl0 =>
            rw [hl0] at hlast
            exact Option.noConfusion hlast
          case h_2 top_there hl0 =>
            rw [hl0] at hlast
            cases hlast
            split at h
            case isTrue => simp at h
            case isFalse hc1 =>
              split at h
              case isTrue => simp at h
              case isFalse hc2 =>
                refine ⟨hc2, ?_⟩
                intro hstand
                rcases Decidable.not_not.mp
                  (fun hno => hc1 ⟨hstand, hno⟩) with ⟨hcap, hone⟩
                exact ⟨hcap, by simp [hone]⟩
        | succ i =>
          have hmv' : next.move_in_by dir (i + 1) = some l := by
            rw [move_in_by_succ, hnext, Option.some_bind] at hmv
            exact hmv
          have hi' : i < rest.length := by
            simp only [List.length_cons] at hi
            omega
          have hrec : wallLoop b th dir next rest = some true := by
            split at h
            case h_1 => exact h
            case h_2 top_there hl0 =>
              split at h
              case isTrue => simp at h
              case isFalse =>
                split at h
                case isTrue => simp at h
                case isFalse => exact h
          obtain ⟨hnc, hstand⟩ := ih next hrec i hi' l sq top hmv' hget hlast
          refine ⟨hnc, fun ht => ⟨(hstand ht).1, ?_⟩⟩
          rw [List.getElem?_cons_succ]
          exact (hstand ht).2

/-- The deposit loop succeeds whenever validity certified the path, and it
moves exactly the held stones onto the board: every per-player per-pool
count grows by the held stones' contribution. -/
theorem moveLoop_total (b0 : Board) (dir : Dir) :
    ∀ (rest : List Nat) (bc : Board) (cur : Loc) (held : List Stone),
      noCapPath b0 dir cur (rest.length + 1) →
      Agree bc b0 dir cur →
      windowsOK (held.length :: rest) = true →
      ∃ b', moveLoop dir bc cur held rest = some b' ∧
        ∀ p c, b'.count p c = bc.count p c + countStack held p c := by
  intro rest
  induction rest with
  | nil =>
    intro bc cur held hpath hagree _
    simp only [List.length_nil, noCapPath] at hpath
    obtain ⟨next, hnext, sq, hsq, hnocap, _⟩ := hpath
    have hbc : bc.get next = b0.get next := hagree 1 next le_rfl hnext
    have hget : bc.get next = some sq := by rw [hbc]; exact hsq
    obtain ⟨b', hset⟩ := setStack_some hget (flattenTop sq ++ held)
    refine ⟨b', ?_, ?_⟩
    · show moveLoop dir bc cur held [] = some b'
      simp only [moveLoop, hnext, hget]
      exact hset
    · intro p c
      have hcount := count_setStack hget hset p c
      have hflat := countStack_flattenTop hnocap p c
      rw [countStack_append, hflat] at hcount
      omega
  | cons stack rest ih =>
    intro bc cur held hpath hagree hw
    simp only [List.length_cons, noCapPath] at hpath
    obtain ⟨next, hnext, sq, hsq, hnocap, hpath'⟩ := hpath
    simp only [windowsOK, Bool.and_eq_true, decide_eq_true_eq] at hw
    have hstack : stack ≤ held.length := by
      have := hw.1.2
      omega
    have hbc : bc.get next = b0.get next := hagree 1 next le_rfl hnext
    have hget : bc.get next = some sq := by rw [hbc]; exact hsq
    obtain ⟨b1, hset⟩ := setStack_some hget (flattenTop sq ++ held.take (held.length - stack))
    have hagree' : Agree b1 b0 dir next := by
      intro k l hk hmv
      have hlne : l ≠ next := move_in_by_ne hk hmv
      rw [get_setStack_ne hset hlne]
      apply hagree (k + 1) l (by omega)
      rw [move_in_by_succ, hnext, Option.some_bind]
      exact hmv
    have hdl : (held.drop (held.length - stack)).length = stack := by
      rw [List.length_drop]
      omega
    have hw' : windowsOK ((held.drop (held.length - stack)).length :: rest) = true := by
      rw [hdl]
      exact hw.2
    obtain ⟨b', hloop, hcnt⟩ := ih b1 next (held.drop (held.length - stack)) hpath' hagree' hw'
    refine ⟨b', ?_, ?_⟩
    · show moveLoop dir bc cur held (stack :: rest) = some b'
      simp only [moveLoop, hnext]
      rw [if_pos hstack]
      simp only [hget, hset]
      exact hloop
    · intro p c
      have hcount := count_setStack hget hset p c
      have hflat := countStack_flattenTop hnocap p c
      rw [countStack_append, hflat] at hcount
      have hsplit := countStack_take_drop held (held.length - stack) p c
      have hrec := hcnt p c
      omega

/-- An accepted Move applies without panicking and conserves every
per-player per-pool stone count on the board. -/
theorem board_apply_move {b : Board} {loc : Loc} {player : Player} {dir : Dir}
    {st : List Nat} (h : b.valid_turn (.Move loc player dir st) = some true) :
    ∃ b', b.apply_turn (.Move loc player dir st) = some b' ∧
      ∀ p c, b'.count p c = b.count p c := by
  obtain ⟨s0, rest, here, dest, top_here, hst, hs0, hsize, hget, hlen, hw, hvl, hmv,
    hvd, htop, howner, hwall⟩ := valid_turn_move_inv h
  subst hst
  obtain ⟨b1, hset⟩ := setStack_some hget (here.take (here.length - s0))
  have hpath : noCapPath b dir loc (rest.length + 1) := by
    have hn := wallLoop_imp_noCapPath (s0 :: rest) loc hwall
    simpa using hn
  have hagree : Agree b1 b dir loc := by
    intro k l hk hmvk
    exact get_setStack_ne hset (move_in_by_ne hk hmvk)
  have hheld : (here.drop (here.length - s0)).length = s0 := by
    rw [List.length_drop]
    omega
  have hw' : windowsOK ((here.drop (here.length - s0)).length :: rest) = true := by
    rw [hheld]
    exact hw
  obtain ⟨b', hloop, hcnt⟩ :=
    moveLoop_total b dir rest b1 loc (here.drop (here.length - s0)) hpath hagree hw'
  refine ⟨b', ?_, ?_⟩
  · simp only [Board.apply_turn, hget]
    rw [if_pos hlen]
    simp only [hset]
    exact hloop
  · intro p c
    have hc1 := count_setStack hget hset p c
    have hsplit := countStack_take_drop here (here.length - s0) p c
    have hrec := hcnt p c
    omega

/-- A Place at a readable square applies without panicking and adds exactly
the placed stone to the counts. -/
theorem board_apply_place {b : Board} {loc : Loc} {player : Player} {typ : StoneType}
    {s₀ : List Stone} (hget : b.get loc = some s₀) :
    ∃ b', b.apply_turn (.Place loc player typ) = some b' ∧
      ∀ p c, b'.count p c = b.count p c + countStack [⟨player, typ⟩] p c := by
  obtain ⟨b', hset⟩ := setStack_some hget (s₀ ++ [⟨player, typ⟩])
  refine ⟨b', ?_, ?_⟩
  · simp only [Board.apply_turn, hget]
    exact hset
  · intro p c
    have hc := count_setStack hget hset p c
    rw [countStack_append] at hc
    omega

/-- Inversion of `GameState::valid_turn` for an accepted turn: the acting
player is the current player, the relevant reserve pool is non-empty for a
Place, and the board accepted the turn. -/
theorem gs_valid_turn_inv {g : GameState} {t : Turn} (h : g.valid_turn t = some true) :
    t.player = g.current_player ∧ g.board.valid_turn t = some true ∧
    ∀ loc pl typ, t = Turn.Place loc pl typ →
      match typ with
      | .Flat | .Standing => (g.reserves pl).reg ≠ 0
      | .Capstone => (g.reserves pl).cap ≠ 0 := by
  cases t with
  | Move loc pl dir st =>
    simp only [GameState.valid_turn, Turn.player] at h
    split at h
    case isFalse => simp at h
    case isTrue hpl =>
      refine ⟨hpl, h, ?_⟩
      intro loc' pl' typ' ht
      cases ht
  | Place loc pl typ =>
    cases typ with
    | Flat =>
      simp only [GameState.valid_turn, Turn.player] at h
      split at h
      case isFalse => simp at h
      case isTrue hpl =>
        split at h
        case isTrue => simp at h
        case isFalse hreg =>
          refine ⟨hpl, h, ?_⟩
          intro loc' pl' typ' ht
          cases ht
          exact hreg
    | Standing =>
      simp only [GameState.valid_turn, Turn.player] at h
      split at h
      case isFalse => simp at h
      case isTrue hpl =>
        split at h
        case isTrue => simp at h
        case isFalse hreg =>
          refine ⟨hpl, h, ?_⟩
          intro loc' pl' typ' ht
          cases ht
          exact hreg
    | Capstone =>
      simp only [GameState.valid_turn, Turn.player] at h
      split at h
      case isFalse => simp at h
      case isTrue hpl =>
        split at h
        case isTrue => simp at h
        case isFalse hcap =>
          refine ⟨hpl, h, ?_⟩
          intro loc' pl' typ' ht
          cases ht
          exact hcap

/-- Full characterisation of `GameState::apply_turn`: rejected turns return
`false` with the state untouched; accepted turns apply to the board, flip
the player, and update reserves only for a Place. -/
theorem gs_apply_turn_char (g : GameState) (t : Turn) :
    (g.valid_turn t = none → g.apply_turn t = none) ∧
    (g.valid_turn t = some false → g.apply_turn t = some (false, g)) ∧
    (g.valid_turn t = some true →
      ∃ b', g.board.apply_turn t = some b' ∧
        ((∃ loc pl typ, t = Turn.Place loc pl typ ∧
            g.apply_turn t = some (true, ⟨g.current_player.next, b',
              fun p => if p = pl then (g.reserves p).consume typ else g.reserves p⟩)) ∨
         (∃ loc pl dir st, t = Turn.Move loc pl dir st ∧
            g.apply_turn t = some (true, ⟨g.current_player.next, b', g.reserves⟩)))) := by
  refine ⟨?_, ?_, ?_⟩
  · intro h
    simp [GameState.apply_turn, h]
  · intro h
    simp [GameState.apply_turn, h]
  · intro h
    obtain ⟨hpl, hboard, hres⟩ := gs_valid_turn_inv h
    cases t with
    | Place loc pl typ =>
      have hplace := (valid_turn_place_iff g.board loc pl typ).mp hboard
      obtain ⟨b', happly, _⟩ := board_apply_place hplace.2
      refine ⟨b', happly, Or.inl ⟨loc, pl, typ, rfl, ?_⟩⟩
      simp [GameState.apply_turn, h, happly]
    | Move loc pl dir st =>
      obtain ⟨b', happly, _⟩ := board_apply_move hboard
      refine ⟨b', happly, Or.inr ⟨loc, pl, dir, st, rfl, ?_⟩⟩
      simp [GameState.apply_turn, h, happly]

/-- C4: Conservation invariant.  For any state reachable from
`GameState::new size` by successful `apply_turn` calls and each player `p`,
the stones on the board owned by `p` counted against the ordinary pool
(Flat/Standing) plus `p`'s remaining ordinary reserve equal the initial
ordinary allotment, and likewise for Capstones against the capstone pool;
and flattening (the only in-place mutation of a placed stone) never changes
any stone's owner. -/
theorem conservation_reachable :
    ∀ (size : Nat) (g : GameState), Reachable size g →
      ∀ r, reserveFor size = some r →
      (∀ p, g.board.count p false + (g.reserves p).reg = r.reg ∧
            g.board.count p true + (g.reserves p).cap = r.cap) ∧
      (∀ s, (flattenTop s).map Stone.owner = s.map Stone.owner) := by
  intro size g hreach
  induction hreach with
  | base g hnew =>
    intro r hr
    refine ⟨?_, fun s => flattenTop_map_owner s⟩
    unfold GameState.new at hnew
    rw [hr] at hnew
    have hg : some (⟨Player.White, Board.new size, fun _ => r⟩ : GameState) = some g := hnew
    cases hg
    intro p
    constructor <;> simp [count_board_new]
  | step g t g' hreach happly ih =>
    intro r hr
    obtain ⟨ihc, _⟩ := ih r hr
    refine ⟨?_, fun s => flattenTop_map_owner s⟩
    have hvalid : g.valid_turn t = some true := by
      unfold GameState.apply_turn at happly
      split at happly
      case h_1 => exact Option.noConfusion happly
      case h_2 => simp at happly
      case h_3 heq => exact heq
    obtain ⟨hpl, hboard, hres⟩ := gs_valid_turn_inv hvalid
    cases t with
    | Place loc pl typ =>
      have hplace := (valid_turn_place_iff g.board loc pl typ).mp hboard
      obtain ⟨b', happly3, hcnt⟩ := @board_apply_place g.board loc pl typ [] hplace.2
      have hg' : g' = ⟨g.current_player.next, b',
          fun p => if p = pl then (g.reserves p).consume typ else g.reserves p⟩ := by
        simp only [GameState.apply_turn, hvalid, happly3] at happly
        exact (congrArg Prod.snd (Option.some_inj.mp happly)).symm
      subst hg'
      have hresp := hres loc pl typ rfl
      intro p
      have hcnt0 := hcnt p false
      have hcnt1 := hcnt p true
      obtain ⟨hg0, hg1⟩ := ihc p
      by_cases hp : p = pl
      · subst hp
        cases typ with
        | Flat =>
          have c0 : countStack [(⟨p, StoneType.Flat⟩ : Stone)] p false = 1 := by
            simp [countStack]
          have c1 : countStack [(⟨p, StoneType.Flat⟩ : Stone)] p true = 0 := by
            simp [countStack]
          rw [c0] at hcnt0
          rw [c1] at hcnt1
          simp only at hresp
          constructor
          · show b'.count p false +
              (if p = p then (g.reserves p).consume StoneType.Flat else g.reserves p).reg = r.reg
            rw [if_pos rfl]
            have hc : ((g.reserves p).consume StoneType.Flat).reg = (g.reserves p).reg - 1 := rfl
            rw [hc]
            omega
          · show b'.count p true +
              (if p = p then (g.reserves p).consume StoneType.Flat else g.reserves p).cap = r.cap
            rw [if_pos rfl]
            have hc : ((g.reserves p).consume StoneType.Flat).cap = (g.reserves p).cap := rfl
            rw [hc]
            omega
        | Standing =>
          have c0 : countStack [(⟨p, StoneType.Standing⟩ : Stone)] p false = 1 := by
            simp [countStack]
          have c1 : countStack [(⟨p, StoneType.Standing⟩ : Stone)] p true = 0 := by
            simp [countStack]
          rw [c0] at hcnt0
          rw [c1] at hcnt1
          simp only at hresp
          constructor
          · show b'.count p false +
              (if p = p then (g.reserves p).consume StoneType.Standing else g.reserves p).reg = r.reg
            rw [if_pos rfl]
            have hc : ((g.reserves p).consume StoneType.Standing).reg = (g.reserves p).reg - 1 := rfl
            rw [hc]
            omega
          · show b'.count p true +
              (if p = p then (g.reserves p).consume StoneType.Standing else g.reserves p).cap = r.cap
            rw [if_pos rfl]
            have hc : ((g.reserves p).consume StoneType.Standing).cap = (g.reserves p).cap := rfl
            rw [hc]
            omega
        | Capstone =>
          have c0 : countStack [(⟨p, StoneType.Capstone⟩ : Stone)] p false = 0 := by
            simp [countStack]
          have c1 : countStack [(⟨p, StoneType.Capstone⟩ : Stone)] p true = 1 := by
            simp [countStack]
          rw [c0] at hcnt0
          rw [c1] at hcnt1
          simp only at hresp
          constructor
          · show b'.count p false +
              (if p = p then (g.reserves p).consume StoneType.Capstone else g.reserves p).reg = r.reg
            rw [if_pos rfl]
            have hc : ((g.reserves p).consume StoneType.Capstone).reg = (g.reserves p).reg := rfl
            rw [hc]
            omega
          · show b'.count p true +
              (if p = p then (g.reserves p).consume StoneType.Capstone else g.reserves p).cap = r.cap
            rw [if_pos rfl]
            have hc : ((g.reserves p).consume StoneType.Capstone).cap = (g.reserves p).cap - 1 := rfl
            rw [hc]
            omega
      · have c0 : countStack [(⟨pl, typ⟩ : Stone)] p false = 0 := by
          simp [countStack, Ne.symm hp]
        have c1 : countStack [(⟨pl, typ⟩ : Stone)] p true = 0 := by
          simp [countStack, Ne.symm hp]
        rw [c0] at hcnt0
        rw [c1] at hcnt1
        constructor
        · show b'.count p false +
            (if p = pl then (g.reserves p).consume typ else g.reserves p).reg = r.reg
          rw [if_neg hp]
          omega
        · show b'.count p true +
            (if p = pl then (g.reserves p).consume typ else g.reserves p).cap = r.cap
          rw [if_neg hp]
          omega
    | Move loc pl dir st =>
      obtain ⟨b', happly3, hcnt⟩ := board_apply_move hboard
      have hg' : g' = ⟨g.current_player.next, b', g.reserves⟩ := by
        simp only [GameState.apply_turn, hvalid, happly3] at happly
        exact (congrArg Prod.snd (Option.some_inj.mp happly)).symm
      subst hg'
      intro p
      have hcnt0 := hcnt p false
      have hcnt1 := hcnt p true
      obtain ⟨hg0, hg1⟩ := ihc p
      constructor
      · show b'.count p false + (g.reserves p).reg = r.reg
        omega
      · show b'.count p true + (g.reserves p).cap = r.cap
        omega

/-- Under the strictly-decreasing check, the code's deposit loop computes
exactly the spec-worded walk over the derived drop counts. -/
theorem moveLoop_eq_specMoveLoop (dir : Dir) :
    ∀ (rest : List Nat) (b : Board) (cur : Loc) (held : List Stone),
      windowsOK (held.length :: rest) = true →
      moveLoop dir b cur held rest = specMoveLoop dir b cur held (dropsOf (held.length :: rest)) := by
  intro rest
  induction rest with
  | nil =>
    intro b cur held _
    cases hmv : cur.move_in dir with
    | none => simp [moveLoop, specMoveLoop, dropsOf, hmv]
    | some next =>
      cases hget : b.get next with
      | none => simp [moveLoop, specMoveLoop, dropsOf, hmv, hget]
      | some sq =>
        cases hset : b.setStack next (flattenTop sq ++ held) with
        | none =>
          simp [moveLoop, specMoveLoop, dropsOf, hmv, hget, List.take_length, hset]
        | some b' =>
          simp [moveLoop, specMoveLoop, dropsOf, hmv, hget, List.take_length, hset]
  | cons stack rest ih =>
    intro b cur held hw
    have hw' := hw
    simp only [windowsOK, Bool.and_eq_true, decide_eq_true_eq] at hw'
    have hstack : stack ≤ held.length := by
      have := hw'.1.2
      omega
    cases hmv : cur.move_in dir with
    | none => simp [moveLoop, specMoveLoop, dropsOf, hmv]
    | some next =>
      cases hget : b.get next with
      | none => simp [moveLoop, specMoveLoop, dropsOf, hmv, hget, hstack]
      | some sq =>
        cases hset : b.setStack next (flattenTop sq ++ held.take (held.length - stack)) with
        | none => simp [moveLoop, specMoveLoop, dropsOf, hmv, hget, hstack, hset]
        | some b' =>
          have hdl : (held.drop (held.length - stack)).length = stack := by
            rw [List.length_drop]
            omega
          have hwrec : windowsOK ((held.drop (held.length - stack)).length :: rest) = true := by
            rw [hdl]
            exact hw'.2
          have hrec := ih b' next (held.drop (held.length - stack)) hwrec
          rw [hdl] at hrec
          simp [moveLoop, specMoveLoop, dropsOf, hmv, hget, hstack, hset, hrec]

/-- An empty 5-stack row. -/
def emptyRow5 : List (List Stone) := List.replicate 5 []

/-- 5×5 board with a single White flat at (0,0). -/
def bOneFlat : Board :=
  ⟨(([⟨Player.White, StoneType.Flat⟩] : List Stone) :: List.replicate 4 []) ::
    List.replicate 4 emptyRow5⟩

/-- 5×5 board with two White flats stacked at (0,0). -/
def bTwoFlats : Board :=
  ⟨((List.replicate 2 (⟨Player.White, StoneType.Flat⟩ : Stone)) :: List.replicate 4 []) ::
    List.replicate 4 emptyRow5⟩

/-- The stack of three White flats used by the zero-drop counterexample. -/
def threeFlats : List Stone := List.replicate 3 ⟨Player.White, StoneType.Flat⟩

/-- 5×5 board with three White flats stacked at (0,0). -/
def bThreeFlats : Board :=
  ⟨(threeFlats :: List.replicate 4 []) :: List.replicate 4 emptyRow5⟩

/-- 5×5 board with a White capstone at (0,0) and a Black standing stone at
(0,1). -/
def bCapWall : Board :=
  ⟨(([⟨Player.White, StoneType.Capstone⟩] : List Stone) ::
      ([⟨Player.Black, StoneType.Standing⟩] : List Stone) :: List.replicate 3 []) ::
    List.replicate 4 emptyRow5⟩

/-- A 5-size game whose players have ordinary stones left but no capstones. -/
def gFlatNoCap : GameState := ⟨Player.White, Board.new 5, fun _ => ⟨21, 0⟩⟩

/-- A 5-size game whose players have capstones left but no ordinary stones. -/
def gNoReg : GameState := ⟨Player.White, Board.new 5, fun _ => ⟨0, 1⟩⟩

/-- A 5-size game over `bOneFlat` with White to move. -/
def gOneFlat : GameState := ⟨Player.White, bOneFlat, fun _ => ⟨20, 1⟩⟩

/-- C1: For a Move accepted by `Board::valid_turn`, every square along the
path satisfies the wall rule: its top stone is never a Capstone, and if its
top stone is Standing then the source stack's top stone is a Capstone and
exactly one stone is dropped onto that square. -/
theorem wall_rule_necessary {b : Board} {loc : Loc} {player : Player} {dir : Dir}
    {st : List Nat} (hv : b.valid_turn (.Move loc player dir st) = some true) :
    ∀ (i : Nat), i < st.length → ∀ (l : Loc) (sq : List Stone) (top : Stone),
      loc.move_in_by dir (i + 1) = some l → b.get l = some sq →
      sq.getLast? = some top →
      top.typ ≠ StoneType.Capstone ∧
      (top.typ = StoneType.Standing →
        ∃ here top_here, b.get loc = some here ∧ here.getLast? = some top_here ∧
          top_here.typ = StoneType.Capstone ∧ (dropsOf st)[i]? = some 1) := by
  obtain ⟨s0, rest, here, dest, top_here, hst, _, _, hget, _, hw, _, _, _, htop, _, hwall⟩ :=
    valid_turn_move_inv hv
  subst hst
  intro i hi l sq top hmv hbg hlast
  obtain ⟨hnc, hstand⟩ := wallLoop_index (s0 :: rest) loc hwall i hi l sq top hmv hbg hlast
  refine ⟨hnc, fun ht => ?_⟩
  obtain ⟨hcap, hone⟩ := hstand ht
  exact ⟨here, top_here, hget, htop, hcap, dropsOf_of_entry_one _ hw i hone⟩

/-- C1 witness: a capstone standing next to a wall may legally crush it with
a single-stone move, and the wall rule's conclusion holds there concretely. -/
theorem wall_rule_necessary_witness :
    bCapWall.valid_turn (.Move ⟨0, 0⟩ Player.White Dir.East [1]) = some true ∧
    (∃ here top_here, bCapWall.get ⟨0, 0⟩ = some here ∧ here.getLast? = some top_here ∧
      top_here.typ = StoneType.Capstone ∧ (dropsOf [1])[0]? = some 1) := by
  have hv : bCapWall.valid_turn (.Move ⟨0, 0⟩ Player.White Dir.East [1]) = some true := by
    decide
  have hres := wall_rule_necessary hv 0 (by decide) ⟨0, 1⟩
    [⟨Player.Black, StoneType.Standing⟩] ⟨Player.Black, StoneType.Standing⟩
    (by decide) (by decide) (by decide)
  exact ⟨hv, hres.2 (by decide)⟩

/-- C3: `Board::valid_turn` accepts a Move only if the carry vector is
non-empty, the number of stones picked up is between 1 and the board size,
it does not exceed the stones present at the source, and the source's top
stone belongs to the acting player. -/
theorem valid_move_only_if {b : Board} {loc : Loc} {player : Player} {dir : Dir}
    {st : List Nat} (hv : b.valid_turn (.Move loc player dir st) = some true) :
    st ≠ [] ∧
    ∃ s0 rest here top_here, st = s0 :: rest ∧
      1 ≤ s0 ∧ s0 ≤ b.size ∧
      b.get loc = some here ∧ s0 ≤ here.length ∧
      here.getLast? = some top_here ∧ top_here.owner = player := by
  obtain ⟨s0, rest, here, dest, top_here, hst, h1, h2, hget, hlen, _, _, _, _, htop, howner, _⟩ :=
    valid_turn_move_inv hv
  subst hst
  exact ⟨by simp, s0, rest, here, top_here, rfl, h1, h2, hget, hlen, htop, howner⟩

/-- C3 witness: a concrete accepted Move on `bOneFlat`, with the necessary
conditions evaluated. -/
theorem valid_move_only_if_witness :
    bOneFlat.valid_turn (.Move ⟨0, 0⟩ Player.White Dir.South [1]) = some true ∧
    ([1] : List Nat) ≠ [] ∧
    (∃ s0 rest here top_here, ([1] : List Nat) = s0 :: rest ∧
      1 ≤ s0 ∧ s0 ≤ bOneFlat.size ∧
      bOneFlat.get ⟨0, 0⟩ = some here ∧ s0 ≤ here.length ∧
      here.getLast? = some top_here ∧ top_here.owner = Player.White) := by
  have hv : bOneFlat.valid_turn (.Move ⟨0, 0⟩ Player.White Dir.South [1]) = some true := by
    decide
  have hres := valid_move_only_if hv
  exact ⟨hv, hres.1, hres.2⟩

/-- C2: On an accepted Move, `Board::apply_turn` removes exactly the
declared total (`stacks'[0]`) from the top of the source stack and then
performs the spec-worded walk: per drop count, flatten the target square's
top stone (owner unchanged) and append that step's prefix of the carried
stones, the remainder continuing onward. -/
theorem apply_move_refines_spec {b : Board} {loc : Loc} {player : Player} {dir : Dir}
    {st : List Nat} (h : b.valid_turn (.Move loc player dir st) = some true) :
    ∃ s0 rest, st = s0 :: rest ∧
      b.apply_turn (.Move loc player dir st) = specMoveApply b loc dir s0 (dropsOf st) := by
  obtain ⟨s0, rest, here, dest, top_here, hst, hs0, hsize, hget, hlen, hw, _, _, _, _, _, _⟩ :=
    valid_turn_move_inv h
  subst hst
  refine ⟨s0, rest, rfl, ?_⟩
  simp only [Board.apply_turn, specMoveApply, hget]
  rw [if_pos hlen, if_pos hlen]
  cases hset : b.setStack loc (here.take (here.length - s0)) with
  | none => simp [hset]
  | some b1 =>
    have hdl : (here.drop (here.length - s0)).length = s0 := by
      rw [List.length_drop]
      omega
    have hw1 : windowsOK ((here.drop (here.length - s0)).length :: rest) = true := by
      rw [hdl]
      exact hw
    have hml := moveLoop_eq_specMoveLoop dir rest b1 loc (here.drop (here.length - s0)) hw1
    rw [hdl] at hml
    simp [hset, hml]

/-- C2 witness: a concrete two-stone move agrees with the spec-worded
application. -/
theorem apply_move_refines_spec_witness :
    bTwoFlats.valid_turn (.Move ⟨0, 0⟩ Player.White Dir.East [2, 1]) = some true ∧
    bTwoFlats.apply_turn (.Move ⟨0, 0⟩ Player.White Dir.East [2, 1]) =
      specMoveApply bTwoFlats ⟨0, 0⟩ Dir.East 2 (dropsOf [2, 1]) := by
  have hv : bTwoFlats.valid_turn (.Move ⟨0, 0⟩ Player.White Dir.East [2, 1]) = some true := by
    decide
  obtain ⟨s0, rest, hst, heq⟩ := apply_move_refines_spec hv
  cases hst
  exact ⟨hv, heq⟩

/-- C5: `GameState::apply_turn` returns `(false, unchanged state)` exactly
when `valid_turn` rejects; on an accepted turn it returns `true`, applies
the turn to the board, flips the current player once, decrements exactly
the matching reserve pool by 1 for a Place, and leaves reserves untouched
for a Move. -/
theorem apply_turn_characterisation (g : GameState) (t : Turn) :
    (g.valid_turn t = some false → g.apply_turn t = some (false, g)) ∧
    (g.valid_turn t = some true →
      ∃ b' g', g.board.apply_turn t = some b' ∧ g.apply_turn t = some (true, g') ∧
        g'.board = b' ∧
        g'.current_player = g.current_player.next ∧
        (∀ loc pl dir st, t = Turn.Move loc pl dir st → ∀ p, g'.reserves p = g.reserves p) ∧
        (∀ loc pl typ, t = Turn.Place loc pl typ →
          (∀ p, p ≠ pl → g'.reserves p = g.reserves p) ∧
          (match typ with
           | .Flat | .Standing =>
              (g'.reserves pl).reg + 1 = (g.reserves pl).reg ∧
              (g'.reserves pl).cap = (g.reserves pl).cap
           | .Capstone =>
              (g'.reserves pl).cap + 1 = (g.reserves pl).cap ∧
              (g'.reserves pl).reg = (g.reserves pl).reg))) := by
  constructor
  · exact (gs_apply_turn_char g t).2.1
  · intro h
    obtain ⟨b', hbap, hcases⟩ := (gs_apply_turn_char g t).2.2 h
    obtain ⟨-, -, hres⟩ := gs_valid_turn_inv h
    rcases hcases with ⟨loc, pl, typ, ht, hap⟩ | ⟨loc, pl, dir, st, ht, hap⟩
    · subst ht
      refine ⟨b', _, hbap, hap, rfl, rfl, ?_, ?_⟩
      · intro loc' pl' dir' st' hteq
        cases hteq
      · intro loc' pl' typ' hteq
        cases hteq
        have hresp := hres loc pl typ rfl
        constructor
        · intro p hp
          show (if p = pl then (g.reserves p).consume typ else g.reserves p) = g.reserves p
          rw [if_neg hp]
        · cases typ with
          | Flat =>
            simp only at hresp
            constructor
            · show (if pl = pl then (g.reserves pl).consume StoneType.Flat
                  else g.reserves pl).reg + 1 = (g.reserves pl).reg
              rw [if_pos rfl]
              have hc : ((g.reserves pl).consume StoneType.Flat).reg =
                  (g.reserves pl).reg - 1 := rfl
              rw [hc]
              omega
            · show (if pl = pl then (g.reserves pl).consume StoneType.Flat
                  else g.reserves pl).cap = (g.reserves pl).cap
              rw [if_pos rfl]
              rfl
          | Standing =>
            simp only at hresp
            constructor
            · show (if pl = pl then (g.reserves pl).consume StoneType.Standing
                  else g.reserves pl).reg + 1 = (g.reserves pl).reg
              rw [if_pos rfl]
              have hc : ((g.reserves pl).consume StoneType.Standing).reg =
                  (g.reserves pl).reg - 1 := rfl
              rw [hc]
              omega
            · show (if pl = pl then (g.reserves pl).consume StoneType.Standing
                  else g.reserves pl).cap = (g.reserves pl).cap
              rw [if_pos rfl]
              rfl
          | Capstone =>
            simp only at hresp
            constructor
            · show (if pl = pl then (g.reserves pl).consume StoneType.Capstone
                  else g.reserves pl).cap + 1 = (g.reserves pl).cap
              rw [if_pos rfl]
              have hc : ((g.reserves pl).consume StoneType.Capstone).cap =
                  (g.reserves pl).cap - 1 := rfl
              rw [hc]
              omega
            · show (if pl = pl then (g.reserves pl).consume StoneType.Capstone
                  else g.reserves pl).reg = (g.reserves pl).reg
              rw [if_pos rfl]
              rfl
    · subst ht
      refine ⟨b', _, hbap, hap, rfl, rfl, ?_, ?_⟩
      · intro loc' pl' dir' st' hteq p
        rfl
      · intro loc' pl' typ' hteq
        cases hteq

/-- C5 witness: a wrong-player Place is rejected without mutation, and a
legal Place is applied with the characterised effects. -/
theorem apply_turn_characterisation_witness :
    gFlatNoCap.apply_turn (.Place ⟨1, 1⟩ Player.Black StoneType.Flat) =
      some (false, gFlatNoCap) ∧
    (∃ b' g', gFlatNoCap.board.apply_turn (.Place ⟨0, 0⟩ Player.White StoneType.Flat) =
        some b' ∧
      gFlatNoCap.apply_turn (.Place ⟨0, 0⟩ Player.White StoneType.Flat) = some (true, g') ∧
      g'.board = b' ∧
      g'.current_player = gFlatNoCap.current_player.next ∧
      (∀ loc pl dir st, (Turn.Place ⟨0, 0⟩ Player.White StoneType.Flat) =
        Turn.Move loc pl dir st → ∀ p, g'.reserves p = gFlatNoCap.reserves p) ∧
      (∀ loc pl typ, (Turn.Place ⟨0, 0⟩ Player.White StoneType.Flat) =
          Turn.Place loc pl typ →
        (∀ p, p ≠ pl → g'.reserves p = gFlatNoCap.reserves p) ∧
        (match typ with
         | .Flat | .Standing =>
            (g'.reserves pl).reg + 1 = (gFlatNoCap.reserves pl).reg ∧
            (g'.reserves pl).cap = (gFlatNoCap.reserves pl).cap
         | .Capstone =>
            (g'.reserves pl).cap + 1 = (gFlatNoCap.reserves pl).cap ∧
            (g'.reserves pl).reg = (gFlatNoCap.reserves pl).reg))) :=
  ⟨(apply_turn_characterisation gFlatNoCap _).1 (by decide),
   (apply_turn_characterisation gFlatNoCap _).2 (by decide)⟩

/-- C6: `GameState::valid_turn` rejects when the declared player is not the
current player; a Place with the relevant pool exhausted is rejected while a
Flat may still be placed with only the capstone pool empty; and at Board
level a Place is legal iff the target is on-board with an empty stack. -/
theorem gs_valid_turn_rules :
    (∀ (g : GameState) (t : Turn), t.player ≠ g.current_player →
      g.valid_turn t = some false) ∧
    (∀ (g : GameState) (loc : Loc) (pl : Player) (typ : StoneType),
      pl = g.current_player → (typ = StoneType.Flat ∨ typ = StoneType.Standing) →
      (g.reserves pl).reg = 0 → g.valid_turn (.Place loc pl typ) = some false) ∧
    (∀ (g : GameState) (loc : Loc) (pl : Player),
      pl = g.current_player → (g.reserves pl).cap = 0 →
      g.valid_turn (.Place loc pl StoneType.Capstone) = some false) ∧
    (gFlatNoCap.valid_turn (.Place ⟨0, 0⟩ Player.White StoneType.Flat) = some true ∧
      (gFlatNoCap.reserves Player.White).cap = 0) ∧
    (∀ (b : Board) (loc : Loc) (pl : Player) (typ : StoneType),
      b.valid_turn (.Place loc pl typ) = some true ↔
        (b.valid_loc loc = true ∧ b.get loc = some [])) := by
  refine ⟨?_, ?_, ?_, ⟨by decide, by decide⟩, valid_turn_place_iff⟩
  · intro g t h
    simp [GameState.valid_turn, h]
  · intro g loc pl typ hpl hft hreg
    subst hpl
    rcases hft with rfl | rfl <;> simp [GameState.valid_turn, Turn.player, hreg]
  · intro g loc pl hpl hcap
    subst hpl
    simp [GameState.valid_turn, Turn.player, hcap]

/-- C6 witness: the three rejection rules fire on concrete states. -/
theorem gs_valid_turn_rules_witness :
    gFlatNoCap.valid_turn (.Place ⟨0, 0⟩ Player.Black StoneType.Flat) = some false ∧
    gNoReg.valid_turn (.Place ⟨0, 0⟩ Player.White StoneType.Flat) = some false ∧
    gFlatNoCap.valid_turn (.Place ⟨0, 0⟩ Player.White StoneType.Capstone) = some false :=
  ⟨gs_valid_turn_rules.1 gFlatNoCap _ (by decide),
   gs_valid_turn_rules.2.1 gNoReg ⟨0, 0⟩ Player.White StoneType.Flat (by decide)
     (Or.inl rfl) (by decide),
   gs_valid_turn_rules.2.2.1 gFlatNoCap ⟨0, 0⟩ Player.White (by decide) (by decide)⟩

/-- C7: the code does NOT reject these ill-formed Moves by returning false:
it panics.  A Move whose path crosses the low edge underflows the unsigned
subtraction in `move_in_by`, and a Move whose source is off-board panics
when `valid_turn` indexes `self[*loc]` before checking `valid_loc`; both are
embedded as `none`. -/
theorem valid_turn_panics :
    bOneFlat.valid_turn (.Move ⟨0, 0⟩ Player.White Dir.North [1]) = none ∧
    bOneFlat.valid_turn (.Move ⟨9, 9⟩ Player.White Dir.East [1]) = none ∧
    gOneFlat.valid_turn (.Move ⟨0, 0⟩ Player.White Dir.North [1]) = none := by
  decide

/-- C8 counterexample: the drop sequence [2, 0, 1] (carry vector [3, 1, 1])
sums to the declared total 3, satisfies the wall check, and meets every
other validity condition, yet `valid_turn` rejects it: a zero-count drop
onto an intermediate square IS forbidden (the carry vector must strictly
decrease). -/
theorem zero_intermediate_drop_rejected :
    dropsOf [3, 1, 1] = [2, 0, 1] ∧
    ([2, 0, 1] : List Nat).sum = 3 ∧
    bThreeFlats.get ⟨0, 0⟩ = some threeFlats ∧
    threeFlats.getLast? = some ⟨Player.White, StoneType.Flat⟩ ∧
    wallLoop bThreeFlats ⟨Player.White, StoneType.Flat⟩ Dir.East ⟨0, 0⟩ [3, 1, 1] =
      some true ∧
    bThreeFlats.valid_loc ⟨0, 0⟩ = true ∧
    (⟨0, 0⟩ : Loc).move_in_by Dir.East 3 = some ⟨0, 3⟩ ∧
    bThreeFlats.valid_loc ⟨0, 3⟩ = true ∧
    0 < 3 ∧ 3 ≤ bThreeFlats.size ∧ 3 ≤ threeFlats.length ∧
    bThreeFlats.valid_turn (.Move ⟨0, 0⟩ Player.White Dir.East [3, 1, 1]) = some false := by
  decide

/-- C8 amended: beyond the wall check, `valid_turn` constrains the drop
sequence so that the drops sum to the declared total AND every drop onto an
intermediate square is at least 1 (zero-count intermediate drops are
rejected); only the final square may receive a zero-count drop, which is
accepted. -/
theorem drop_sequence_constraints :
    (∀ (b : Board) (loc : Loc) (player : Player) (dir : Dir) (st : List Nat),
      b.valid_turn (.Move loc player dir st) = some true →
      ∃ s0 rest, st = s0 :: rest ∧ (dropsOf st).sum = s0 ∧
        (∀ (i : Nat), i + 1 < (dropsOf st).length →
          ∃ d, (dropsOf st)[i]? = some d ∧ 1 ≤ d)) ∧
    (bTwoFlats.valid_turn (.Move ⟨0, 0⟩ Player.White Dir.East [2, 0]) = some true ∧
      dropsOf [2, 0] = [2, 0]) := by
  constructor
  · intro b loc player dir st hv
    obtain ⟨s0, rest, here, dest, top_here, hst, _, _, _, _, hw, _, _, _, _, _, _⟩ :=
      valid_turn_move_inv hv
    subst hst
    exact ⟨s0, rest, rfl, dropsOf_sum s0 rest hw, dropsOf_intermediate_pos _ hw⟩
  · exact ⟨by decide, by decide⟩

/-- C8 amended witness: the constraints evaluated on the accepted zero-final
drop move. -/
theorem drop_sequence_constraints_witness :
    ∃ s0 rest, ([2, 0] : List Nat) = s0 :: rest ∧ (dropsOf [2, 0]).sum = s0 ∧
      (∀ (i : Nat), i + 1 < (dropsOf [2, 0]).length →
        ∃ d, (dropsOf [2, 0])[i]? = some d ∧ 1 ≤ d) :=
  drop_sequence_constraints.1 bTwoFlats ⟨0, 0⟩ Player.White Dir.East [2, 0] (by decide)

/-- The Move of the §8 scenario: from (0,0) one step South carrying one
stone. -/
def c9moveTurn : Turn := .Move ⟨0, 0⟩ Player.White Dir.South [1]

/-- The §8 scenario: fresh 5×5 game, White flat at (0,0), Black flat at
(1,0), then the Move. -/
def c9final : Option GameState :=
  (GameState.new 5).bind (fun g => runTurns g
    [.Place ⟨0, 0⟩ Player.White StoneType.Flat,
     .Place ⟨1, 0⟩ Player.Black StoneType.Flat,
     c9moveTurn])

/-- The stack at (1,0) after the scenario, bottom-to-top. -/
def c9stack : Option (List Stone) :=
  match c9final with
  | none => none
  | some g => g.board.get ⟨1, 0⟩

/-- The Standing variant of the scenario, stopped before the Move. -/
def c9gStand : Option GameState :=
  (GameState.new 5).bind (fun g => runTurns g
    [.Place ⟨0, 0⟩ Player.White StoneType.Flat,
     .Place ⟨1, 0⟩ Player.Black StoneType.Standing])

/-- Submitting the Move to the Standing variant through the GameState. -/
def c9standRes : Option (Bool × GameState) :=
  match c9gStand with
  | none => none
  | some g => g.apply_turn c9moveTurn

/-- Applying the Move of the Standing variant directly at Board level
(bypassing validation), then reading (1,0). -/
def c9standBoardStack : Option (Option (List Stone)) :=
  match c9gStand with
  | none => none
  | some g => (g.board.apply_turn c9moveTurn).map (fun b => b.get ⟨1, 0⟩)

/-- C9 counterexample: after the scenario the stack at (1,0) is
[second-mover flat, first-mover flat] bottom-to-top, i.e. the TOP stone is
the FIRST mover's flat, so the claimed top-to-bottom order
[second-mover, first-mover] does not hold. -/
theorem c9_scenario_top_stone :
    c9stack = some [⟨Player.Black, StoneType.Flat⟩, ⟨Player.White, StoneType.Flat⟩] ∧
    c9stack.map (fun s => s.getLast?) = some (some ⟨Player.White, StoneType.Flat⟩) ∧
    c9stack ≠ some [⟨Player.White, StoneType.Flat⟩, ⟨Player.Black, StoneType.Flat⟩] := by
  decide

/-- C9 amended: the three turns all succeed; (1,0) then holds the
second-mover's flat at the bottom and the first mover's flat on top; had
(1,0) held a Standing stone, the Move would be REJECTED by
`GameState::apply_turn` (returning false and leaving the stone Standing),
while `Board::apply_turn` invoked directly without validation would flatten
it to Flat. -/
theorem c9_scenario_amended :
    c9final.isSome = true ∧
    c9stack = some [⟨Player.Black, StoneType.Flat⟩, ⟨Player.White, StoneType.Flat⟩] ∧
    c9stack.map (fun s => s.getLast?) = some (some ⟨Player.White, StoneType.Flat⟩) ∧
    c9standRes.map Prod.fst = some false ∧
    c9standRes.map (fun r => r.2.board.get ⟨1, 0⟩) =
      some (some [⟨Player.Black, StoneType.Standing⟩]) ∧
    c9standBoardStack =
      some (some [⟨Player.Black, StoneType.Flat⟩, ⟨Player.White, StoneType.Flat⟩]) := by
  decide

/-- C10: the reserve table, the structure of freshly constructed games, the
empty square board, and the fatal rejection (panic, embedded as `none`) for
unsupported sizes. -/
theorem new_game_characterisation :
    (reserveFor 3 = some ⟨10, 0⟩ ∧ reserveFor 4 = some ⟨15, 0⟩ ∧
      reserveFor 5 = some ⟨21, 1⟩ ∧ reserveFor 6 = some ⟨30, 1⟩ ∧
      reserveFor 7 = some ⟨40, 2⟩ ∧ reserveFor 8 = some ⟨50, 2⟩) ∧
    (∀ (size : Nat) (r : Reserve), reserveFor size = some r →
      GameState.new size = some ⟨Player.White, Board.new size, fun _ => r⟩) ∧
    (∀ size : Nat, (Board.new size).size = size ∧
      ∀ loc : Loc, loc.row < size → loc.col < size → (Board.new size).get loc = some []) ∧
    (∀ size : Nat, size < 3 ∨ 8 < size → GameState.new size = none) := by
  refine ⟨⟨rfl, rfl, rfl, rfl, rfl, rfl⟩, ?_, ?_, ?_⟩
  · intro size r hr
    unfold GameState.new
    rw [hr]
  · intro size
    refine ⟨by simp [Board.new, Board.size], ?_⟩
    intro loc h1 h2
    simp [Board.new, Board.get, List.getElem?_replicate, h1, h2]
  · intro size hsz
    have hr : reserveFor size = none := by
      rcases hsz with h | h
      · interval_cases size <;> rfl
      · obtain ⟨n, rfl⟩ : ∃ n, size = n + 9 := ⟨size - 9, by omega⟩
        rfl
    unfold GameState.new
    rw [hr]

/-- C10 witness: evaluated at size 5 (supported) and size 9 (panic). -/
theorem new_game_characterisation_witness :
    GameState.new 5 = some ⟨Player.White, Board.new 5, fun _ => (⟨21, 1⟩ : Reserve)⟩ ∧
    (Board.new 5).get ⟨2, 3⟩ = some [] ∧
    GameState.new 9 = none :=
  ⟨new_game_characterisation.2.1 5 ⟨21, 1⟩ (by decide),
   (new_game_characterisation.2.2.1 5).2 ⟨2, 3⟩ (by decide) (by decide),
   new_game_characterisation.2.2.2 9 (Or.inr (by decide))⟩

/-- C4 witness: the conservation equation evaluated at the freshly
constructed 5-size game for the first mover. -/
theorem conservation_reachable_witness :
    (Board.new 5).count Player.White false + 21 = 21 ∧
    (Board.new 5).count Player.White true + 1 = 1 := by
  have hreach : Reachable 5 ⟨Player.White, Board.new 5, fun _ => ⟨21, 1⟩⟩ :=
    Reachable.base _ rfl
  exact (conservation_reachable 5 _ hreach ⟨21, 1⟩ rfl).1 Player.White
